import Mathlib

/-!
# B-tree page layout (`database/btree1.h`)

A shallow embedding of the page, slot and key layout declared in `btree1.h`:
the size constants, the lock-mode masks, the bit-packed slot descriptor, the
page-header flag byte and the accessors `slotptr`, `keyaddr`, `keyptr`,
`keylen`, `keystr`, `keypre`.

Conventions of the embedding.

* A page is a list of bytes (`uint8_t`, here `UInt8`); a pointer into the page
  is the byte offset from the page base.  A read outside the list yields
  `none`.
* C integer expressions are evaluated over `Nat`/`Int`, as C does after
  integer promotion; a value stored into a field of `w` bits is reduced
  modulo `2 ^ w`.
* Bit-fields are allocated from the least significant bit upward and
  multi-byte words are little-endian.
-/

namespace Btree

/-! ## Size constants -/

/-- Maximum key size in bytes. -/
def Btree_maxkey : Nat := 4096

/-- Maximum page size in bits. -/
def Btree_maxbits : Nat := 29

/-- Minimum page size in bits. -/
def Btree_minbits : Nat := 9

/-- Minimum page size, `(1 << Btree_minbits)`. -/
def Btree_minpage : Nat := 1 <<< Btree_minbits

/-- Maximum page size, `(1 << Btree_maxbits)`. -/
def Btree_maxpage : Nat := 1 <<< Btree_maxbits

/-- Exclusive upper bound of a 32-bit signed `int`. -/
def INT_LIMIT : Nat := 2 ^ 31

/-! ## Key accessors -/

/-- Page memory: the bytes of one page, addressed from the page base. -/
abbrev Mem := List UInt8

/-- Expression `key[0] & 0x80` of the three key accessors, on the promoted byte. -/
def longForm (b0 : UInt8) : Bool := b0.toNat &&& 0x80 != 0

/-- Accessor `keylen(key)`:
`((key[0] & 0x80) ? ((key[0] & 0x7f) << 8 | key[1]) : key[0])`. -/
def keylen (mem : Mem) (key : Nat) : Option Nat :=
  match mem[key]? with
  | none => none
  | some b0 =>
    if longForm b0 then
      match mem[key + 1]? with
      | none => none
      | some b1 => some (((b0.toNat &&& 0x7f) <<< 8) ||| b1.toNat)
    else some b0.toNat

/-- Accessor `keystr(key)`: `((key[0] & 0x80) ? (key + 2) : (key + 1))`. -/
def keystr (mem : Mem) (key : Nat) : Option Nat :=
  match mem[key]? with
  | none => none
  | some b0 => if longForm b0 then some (key + 2) else some (key + 1)

/-- Accessor `keypre(key)`: `((key[0] & 0x80) ? 2 : 1)`. -/
def keypre (mem : Mem) (key : Nat) : Option Nat :=
  match mem[key]? with
  | none => none
  | some b0 => if longForm b0 then some 2 else some 1

/-- Accessor `keyaddr(page, off)`: `(uint8_t *)((unsigned char*)(page) + off)`. -/
def keyaddr (off : Nat) : Nat := 0 + off

/-- Modelled from the spec: the writer of a key (the insert path, which this
header only declares) lays a key of length `n` out as one prefix byte `n` when
`n ≤ 127`, otherwise as the two prefix bytes `0x80 | (n >> 8)` and `n & 0xff`,
followed by the `n` key bytes.  Each prefix value is stored into a `uint8_t`. -/
def storeKey (k : List UInt8) : Mem :=
  if k.length ≤ 127 then
    UInt8.ofNat k.length :: k
  else
    UInt8.ofNat (0x80 ||| (k.length >>> 8)) :: UInt8.ofNat (k.length &&& 0xff) :: k

/-- The `len` bytes of `mem` that start at offset `a`. -/
def bytesAt (mem : Mem) (a len : Nat) : List UInt8 := (mem.drop a).take len


/-! ## Lock modes and latches -/

/-- Lock modes: the enumeration `BtreeLock`. -/
inductive BtreeLock where
  | Btree_lockAccess
  | Btree_lockDelete
  | Btree_lockRead
  | Btree_lockWrite
  | Btree_lockParent
  | Btree_lockLink
  deriving DecidableEq, Repr

/-- Enumerator values of `BtreeLock`. -/
def BtreeLock.val : BtreeLock → Nat
  | .Btree_lockAccess => 1
  | .Btree_lockDelete => 2
  | .Btree_lockRead => 4
  | .Btree_lockWrite => 8
  | .Btree_lockParent => 16
  | .Btree_lockLink => 32

/-- All six lock modes, in declaration order. -/
def BtreeLock.all : List BtreeLock :=
  [.Btree_lockAccess, .Btree_lockDelete, .Btree_lockRead, .Btree_lockWrite,
   .Btree_lockParent, .Btree_lockLink]

instance : Fintype BtreeLock where
  elems := ⟨BtreeLock.all, by decide⟩
  complete := by intro l; cases l <;> decide

/-- Fields of `LatchSet`, one reader/writer lock each. -/
inductive Latch where
  | readwr
  | access
  | parent
  | link
  deriving DecidableEq, Repr

/-- Number of the independent set a lock mode belongs to, as the comment
above `BtreeLock` lists them: AccessIntent and NodeDelete in set 1, ReadLock and
WriteLock in set 2, ParentModification in set 3, LinkModification in set 4. -/
def BtreeLock.set : BtreeLock → Nat
  | .Btree_lockAccess => 1
  | .Btree_lockDelete => 1
  | .Btree_lockRead => 2
  | .Btree_lockWrite => 2
  | .Btree_lockParent => 3
  | .Btree_lockLink => 4

/-- Latch field of `LatchSet` that serves a lock mode, following the field
comments: `readwr` is the read/write access lock, `access` waits for the delete
lock, `parent` guards the posting of a fence key, `link` the left-link update. -/
def BtreeLock.latch : BtreeLock → Latch
  | .Btree_lockAccess => .access
  | .Btree_lockDelete => .access
  | .Btree_lockRead => .readwr
  | .Btree_lockWrite => .readwr
  | .Btree_lockParent => .parent
  | .Btree_lockLink => .link

/-- Bitwise OR of the values of the lock modes contained in `s`. -/
def lockMask (s : Finset BtreeLock) : Nat :=
  BtreeLock.all.foldl (fun m l => if l ∈ s then m ||| l.val else m) 0

/-- Lock modes whose bit is set in the mask `m`. -/
def lockModes (m : Nat) : Finset BtreeLock :=
  Finset.univ.filter (fun l => m &&& l.val ≠ 0)

/-! ## Slot descriptors -/

/-- Slot types: the enumeration `BtreeSlotType`. -/
inductive BtreeSlotType where
  | Btree_indexed
  | Btree_deleted
  | Btree_librarian
  | Btree_stopper
  deriving DecidableEq, Repr

/-- Enumerator values of `BtreeSlotType`. -/
def BtreeSlotType.val : BtreeSlotType → Nat
  | .Btree_indexed => 0
  | .Btree_deleted => 1
  | .Btree_librarian => 2
  | .Btree_stopper => 3

/-- Slot type denoted by the value of a two-bit `type` field. -/
def BtreeSlotType.ofField (v : Nat) : BtreeSlotType :=
  if v % 4 = 0 then .Btree_indexed
  else if v % 4 = 1 then .Btree_deleted
  else if v % 4 = 2 then .Btree_librarian
  else .Btree_stopper

/-- Union `BtreeSlot`: one `uint32_t` word `bits`, also seen as the bit-fields
`off:Btree_maxbits`, `type:2`, `dead:1`. -/
structure BtreeSlot where
  bits : Nat
  deriving DecidableEq, Repr

/-- Field `off`: bits 0..28 of the word. -/
def BtreeSlot.off (s : BtreeSlot) : Nat := s.bits % 2 ^ Btree_maxbits

/-- Field `type`: bits 29..30 of the word. -/
def BtreeSlot.type (s : BtreeSlot) : Nat := s.bits / 2 ^ Btree_maxbits % 2 ^ 2

/-- Field `dead`: bit 31 of the word. -/
def BtreeSlot.dead (s : BtreeSlot) : Nat := s.bits / 2 ^ (Btree_maxbits + 2) % 2 ^ 1

/-- The word assembled from three field values, each reduced to its width. -/
def BtreeSlot.ofFields (off type dead : Nat) : BtreeSlot :=
  ⟨off % 2 ^ Btree_maxbits + (type % 2 ^ 2) * 2 ^ Btree_maxbits
    + (dead % 2 ^ 1) * 2 ^ (Btree_maxbits + 2)⟩

/-- Assignment `slot->off = v`. -/
def BtreeSlot.setOff (s : BtreeSlot) (v : Nat) : BtreeSlot := BtreeSlot.ofFields v s.type s.dead

/-- Assignment `slot->type = v`. -/
def BtreeSlot.setType (s : BtreeSlot) (v : Nat) : BtreeSlot := BtreeSlot.ofFields s.off v s.dead

/-- Assignment `slot->dead = v`. -/
def BtreeSlot.setDead (s : BtreeSlot) (v : Nat) : BtreeSlot := BtreeSlot.ofFields s.off s.type v

/-- A slot descriptor written field by field into a cleared word:
`bits = 0`, then `off`, `type` and `dead` assigned. -/
def packSlot (off : Nat) (type : BtreeSlotType) (dead : Bool) : BtreeSlot :=
  (((BtreeSlot.mk 0).setOff off).setType type.val).setDead dead.toNat

/-- The three fields read back from a descriptor. -/
def unpackSlot (s : BtreeSlot) : Nat × BtreeSlotType × Bool :=
  (s.off, BtreeSlotType.ofField s.type, s.dead != 0)

/-! ## Page header -/

/-- Struct `LatchSet`: the four latches of a page; each holds the state word of
an `RWLock3`, which this header does not define. -/
structure LatchSet where
  readwr : Nat
  access : Nat
  parent : Nat
  link : Nat
  deriving DecidableEq, Repr

/-- Struct `BtreePage`.  The bit-fields `lvl:6`, `free:1`, `kill:1` share the
byte `flags`; `right` and `left` are page addresses (`DbAddr`). -/
structure BtreePage where
  latch : LatchSet
  cnt : Nat
  act : Nat
  min : Nat
  garbage : Nat
  flags : Nat
  right : Nat
  left : Nat
  deriving DecidableEq, Repr

/-- Field `lvl`: bits 0..5 of the flag byte. -/
def BtreePage.lvl (p : BtreePage) : Nat := p.flags % 2 ^ 6

/-- Field `free`: bit 6 of the flag byte. -/
def BtreePage.free (p : BtreePage) : Nat := p.flags / 2 ^ 6 % 2 ^ 1

/-- Field `kill`: bit 7 of the flag byte. -/
def BtreePage.kill (p : BtreePage) : Nat := p.flags / 2 ^ 7 % 2 ^ 1

/-- Assignment `page->lvl = v`: the value is reduced to six bits, the other two
fields of the byte keep their bits. -/
def BtreePage.setLvl (p : BtreePage) (v : Nat) : BtreePage :=
  { p with flags := v % 2 ^ 6 + p.free * 2 ^ 6 + p.kill * 2 ^ 7 }

/-! ## Slot resolution -/

/-- Conversion `(int)slot` of an unsigned 32-bit value (two's complement). -/
def toInt32 (n : Nat) : Int :=
  if n % 2 ^ 32 < 2 ^ 31 then ((n % 2 ^ 32 : Nat) : Int) else ((n % 2 ^ 32 : Nat) : Int) - 2 ^ 32

/-- Size of one slot descriptor in bytes, `sizeof(BtreeSlot)`. -/
def slotSize : Nat := 4

/-- Accessor `slotptr(page, slot)`:
`(((BtreeSlot *)(page+1)) + (((int)slot)-1))`, as a byte offset from the page
base.  `H` is `sizeof(BtreePage)`, which depends on types defined elsewhere. -/
def slotptr (H : Nat) (slot : Nat) : Int := (H : Int) + (slotSize : Int) * (toInt32 slot - 1)

/-- The 32-bit little-endian word at byte offset `a` of the page. -/
def word32 (page : Mem) (a : Nat) : Option Nat :=
  match page[a]?, page[a + 1]?, page[a + 2]?, page[a + 3]? with
  | some b0, some b1, some b2, some b3 =>
    some (b0.toNat + b1.toNat * 2 ^ 8 + b2.toNat * 2 ^ 16 + b3.toNat * 2 ^ 24)
  | _, _, _, _ => none

/-- Dereference of a `BtreeSlot *` given as a byte offset from the page base. -/
def slotAt (page : Mem) (a : Int) : Option BtreeSlot :=
  if 0 ≤ a then (word32 page a.toNat).map BtreeSlot.mk else none

/-- Accessor `keyptr(page, slot)`:
`(uint8_t *)((unsigned char*)(page) + slotptr(page, slot)->off)`. -/
def keyptr (page : Mem) (H : Nat) (slot : Nat) : Option Nat :=
  (slotAt page (slotptr H slot)).map (fun d => 0 + d.off)

/-- The `len` bytes at offset `a`, when they lie inside the page. -/
def keyBytes (page : Mem) (a len : Nat) : Option (List UInt8) :=
  if a + len ≤ page.length then some (bytesAt page a len) else none

/-- Key stored at the address `key`: the `keylen(key)` bytes found at
`keystr(key)`. -/
def keyAt (page : Mem) (key : Nat) : Option (List UInt8) :=
  match keylen page key, keystr page key with
  | some len, some str => keyBytes page str len
  | _, _ => none

/-- Key of a slot: the key stored at `keyptr(page, slot)`. -/
def slotKey (page : Mem) (H : Nat) (slot : Nat) : Option (List UInt8) :=
  match keyptr page H slot with
  | some key => keyAt page key
  | none => none

/-! ## Page cleanup -/

/-- Modelled from the spec: a page as the spec's data model presents it, the
header fields of `BtreePage`, the slot directory (slot `i` is entry `i - 1`) and
the bytes of the page, in which the `off` field of a slot addresses the
length-prefixed key.  The code that lays pages out is outside this header. -/
structure Page where
  hdr : BtreePage
  slots : List BtreeSlot
  mem : Mem
  deriving DecidableEq, Repr

/-- Number of bytes a key occupies at the address `key`: its prefix and its
bytes, `keypre(key) + keylen(key)`. -/
def keySpan (mem : Mem) (key : Nat) : Option Nat :=
  match keypre mem key, keylen mem key with
  | some p, some len => some (p + len)
  | _, _ => none

/-- The buffer `buf` with the bytes `bs` copied to offset `a` (`memcpy`). -/
def writeBytes (buf : Mem) (a : Nat) (bs : List UInt8) : Mem :=
  buf.take a ++ bs ++ buf.drop (a + bs.length)

/-- State of the compaction: next key offset, buffer, slots written so far. -/
structure CleanState where
  min : Nat
  buf : Mem
  slots : List BtreeSlot
  deriving DecidableEq, Repr

/-- Modelled from the spec: one live slot rewritten into the compacted buffer.
The key, with its prefix, is copied just below the keys already placed and the
slot is appended with its new offset.  A key that cannot be read inside the
page, or that no longer fits, is a corruption and ends the cleanup. -/
def copyKey (src : Mem) (st : CleanState) (d : BtreeSlot) : Option CleanState :=
  match keySpan src (keyaddr d.off) with
  | some n =>
    if keyaddr d.off + n ≤ src.length ∧ n ≤ st.min then
      some { min := st.min - n
             buf := writeBytes st.buf (st.min - n) (bytesAt src (keyaddr d.off) n)
             slots := st.slots ++ [d.setOff (st.min - n)] }
    else none
  | none => none

/-- Modelled from the spec: the cleanup loop over the slot directory, in slot
order; dead entries are dropped, live ones rewritten by `copyKey`. -/
def cleanSlots (src : Mem) : List BtreeSlot → CleanState → Option CleanState
  | [], st => some st
  | d :: ds, st =>
    if d.dead ≠ 0 then cleanSlots src ds st
    else
      match copyKey src st d with
      | some st2 => cleanSlots src ds st2
      | none => none

/-- Modelled from the spec: `btreeCleanPage`, declared in this header and
defined elsewhere.  It rewrites the live slots and their key bytes of the page
into a compacted buffer that replaces the page contents, drops the dead entries
and resets the garbage counter to zero; the slot order is kept and the latches
are not touched.  The counts and the next key offset are set from the result. -/
def btreeCleanPage (p : Page) : Option Page :=
  match cleanSlots p.mem p.slots
      { min := p.mem.length, buf := List.replicate p.mem.length 0, slots := [] } with
  | some st =>
    some { hdr := { p.hdr with cnt := st.slots.length, act := st.slots.length,
                               min := st.min, garbage := 0 }
           slots := st.slots
           mem := st.buf }
  | none => none

/-- Keys of the live (non-dead) slots of a page, in slot order. -/
def liveKeys (p : Page) : List (Option (List UInt8)) :=
  (p.slots.filter (fun d => d.dead = 0)).map (fun d => keyAt p.mem (keyaddr d.off))

/-- Total number of bytes the keys of the live slots occupy. -/
def liveBytes (mem : Mem) (slots : List BtreeSlot) : Nat :=
  ((slots.filter (fun d => d.dead = 0)).map
    (fun d => (keySpan mem (keyaddr d.off)).getD 0)).sum

/-- The key at the address `key` can be read and ends inside the page. -/
def keyInside (mem : Mem) (key : Nat) : Bool :=
  match keySpan mem key with
  | some n => decide (key + n ≤ mem.length)
  | none => false

/-- Example page of 32 bytes: the keys `[1, 2]` at offset 29, `[3]` (dead) at
offset 27, `[4, 5, 6]` at offset 23; 2 bytes of garbage. -/
def samplePage : Page where
  hdr := { latch := ⟨1, 1, 0, 0⟩, cnt := 3, act := 2, min := 23, garbage := 2,
           flags := 0, right := 0, left := 0 }
  slots := [packSlot 29 .Btree_indexed false, packSlot 27 .Btree_deleted true,
            packSlot 23 .Btree_stopper false]
  mem := List.replicate 23 0 ++ [3, 4, 5, 6, 1, 3, 2, 1, 2]
/-! ## Arithmetic reading of the bit operations -/

theorem and_0x80 (b : Nat) : b &&& 0x80 = (b / 128 % 2) * 128 := by
  have h := Nat.and_two_pow b 7
  rw [Nat.testBit_to_div_mod] at h
  norm_num at h
  rw [h]
  rcases Nat.mod_two_eq_zero_or_one (b / 128) with h2 | h2 <;> simp [h2]

theorem and_0x7f (b : Nat) : b &&& 0x7f = b % 128 := by
  have h := Nat.and_pow_two_sub_one_eq_mod b 7
  norm_num at h
  exact h

theorem and_0xff (b : Nat) : b &&& 0xff = b % 256 := by
  have h := Nat.and_pow_two_sub_one_eq_mod b 8
  norm_num at h
  exact h

theorem shl8_or (a b : Nat) (hb : b < 256) : (a <<< 8) ||| b = a * 256 + b := by
  have h := @Nat.mul_add_lt_is_or 8 b (by norm_num; exact hb) a
  rw [Nat.shiftLeft_eq]
  norm_num at h ⊢
  rw [Nat.mul_comm a 256, ← h]

theorem or_0x80 (a : Nat) (ha : a < 128) : 0x80 ||| a = 128 + a := by
  have h := @Nat.mul_add_lt_is_or 7 a (by norm_num; exact ha) 1
  norm_num at h ⊢
  exact h.symm

theorem toNat_ofNat (n : Nat) : (UInt8.ofNat n).toNat = n % 256 := rfl

theorem toNat_lt (b : UInt8) : b.toNat < 256 := b.val.isLt

theorem longForm_iff (b : UInt8) : longForm b = true ↔ 128 ≤ b.toNat := by
  have hb := toNat_lt b
  simp only [longForm, bne_iff_ne, ne_eq, and_0x80]
  omega

theorem longForm_false_iff (b : UInt8) : longForm b = false ↔ b.toNat < 128 := by
  rw [← Bool.not_eq_true, longForm_iff]
  omega

/-- Decoded length of a two-byte prefix. -/
theorem longLen (b0 b1 : UInt8) :
    ((b0.toNat &&& 0x7f) <<< 8) ||| b1.toNat = (b0.toNat % 128) * 256 + b1.toNat := by
  rw [and_0x7f, shl8_or _ _ (toNat_lt b1)]



theorem read_mid (pre : List UInt8) (x : UInt8) (tl : List UInt8) :
    (pre ++ x :: tl)[pre.length]? = some x := by
  rw [List.getElem?_append_right (le_refl _)]
  simp

theorem read_mid_succ (pre : List UInt8) (x y : UInt8) (tl : List UInt8) :
    (pre ++ x :: y :: tl)[pre.length + 1]? = some y := by
  rw [List.getElem?_append_right (by omega)]
  simp

theorem bytesAt_mid (pre k rest : List UInt8) :
    bytesAt (pre ++ (k ++ rest)) pre.length k.length = k := by
  simp [bytesAt]

theorem storeKey_short (k : List UInt8) (h : k.length ≤ 127) :
    storeKey k = UInt8.ofNat k.length :: k := by
  simp [storeKey, h]

theorem storeKey_long (k : List UInt8) (h : 127 < k.length) :
    storeKey k = UInt8.ofNat (0x80 ||| (k.length >>> 8)) :: UInt8.ofNat (k.length &&& 0xff) :: k := by
  have : ¬ k.length ≤ 127 := by omega
  simp [storeKey, this]

theorem lead0_long (n : Nat) (h1 : 127 < n) (h2 : n < 32768) :
    (UInt8.ofNat (0x80 ||| (n >>> 8))).toNat = 128 + n / 256 := by
  rw [toNat_ofNat, Nat.shiftRight_eq_div_pow, or_0x80 _ (by norm_num; omega)]
  norm_num
  omega

theorem lead1_long (n : Nat) : (UInt8.ofNat (n &&& 0xff)).toNat = n % 256 := by
  rw [toNat_ofNat, and_0xff]
  omega

theorem keylen_storeKey (pre k rest : List UInt8) (h : k.length < 32768) :
    keylen (pre ++ storeKey k ++ rest) pre.length = some k.length := by
  by_cases hs : k.length ≤ 127
  · have hb : (UInt8.ofNat k.length).toNat = k.length := by rw [toNat_ofNat]; omega
    have hl : longForm (UInt8.ofNat k.length) = false := by
      rw [longForm_false_iff, hb]; omega
    rw [storeKey_short k hs, List.append_assoc, List.cons_append]
    simp only [keylen, read_mid, hl, hb]
    simp
  · have hs2 : 127 < k.length := by omega
    have hb := lead0_long k.length hs2 h
    have hl : longForm (UInt8.ofNat (0x80 ||| (k.length >>> 8))) = true := by
      rw [longForm_iff, hb]; omega
    rw [storeKey_long k hs2, List.append_assoc, List.cons_append, List.cons_append]
    simp only [keylen, read_mid, read_mid_succ, hl, if_true]
    rw [longLen, hb, lead1_long]
    congr 1
    omega

theorem keypre_storeKey (pre k rest : List UInt8) (h : k.length < 32768) :
    keypre (pre ++ storeKey k ++ rest) pre.length = some (if k.length ≤ 127 then 1 else 2) := by
  by_cases hs : k.length ≤ 127
  · have hb : (UInt8.ofNat k.length).toNat = k.length := by rw [toNat_ofNat]; omega
    have hl : longForm (UInt8.ofNat k.length) = false := by
      rw [longForm_false_iff, hb]; omega
    rw [storeKey_short k hs, List.append_assoc, List.cons_append]
    simp only [keypre, read_mid, hl, hs]
    simp
  · have hs2 : 127 < k.length := by omega
    have hb := lead0_long k.length hs2 h
    have hl : longForm (UInt8.ofNat (0x80 ||| (k.length >>> 8))) = true := by
      rw [longForm_iff, hb]; omega
    rw [storeKey_long k hs2, List.append_assoc, List.cons_append, List.cons_append]
    simp only [keypre, read_mid, hl, hs]
    simp

theorem keystr_storeKey (pre k rest : List UInt8) (h : k.length < 32768) :
    keystr (pre ++ storeKey k ++ rest) pre.length
      = some (pre.length + (if k.length ≤ 127 then 1 else 2)) := by
  by_cases hs : k.length ≤ 127
  · have hb : (UInt8.ofNat k.length).toNat = k.length := by rw [toNat_ofNat]; omega
    have hl : longForm (UInt8.ofNat k.length) = false := by
      rw [longForm_false_iff, hb]; omega
    rw [storeKey_short k hs, List.append_assoc, List.cons_append]
    simp only [keystr, read_mid, hl, hs]
    simp
  · have hs2 : 127 < k.length := by omega
    have hb := lead0_long k.length hs2 h
    have hl : longForm (UInt8.ofNat (0x80 ||| (k.length >>> 8))) = true := by
      rw [longForm_iff, hb]; omega
    rw [storeKey_long k hs2, List.append_assoc, List.cons_append, List.cons_append]
    simp only [keystr, read_mid, hl, hs]
    simp

theorem bytesAt_storeKey (pre k rest : List UInt8) :
    bytesAt (pre ++ storeKey k ++ rest)
      (pre.length + (if k.length ≤ 127 then 1 else 2)) k.length = k := by
  by_cases hs : k.length ≤ 127
  · rw [storeKey_short k hs, if_pos hs]
    have := bytesAt_mid (pre ++ [UInt8.ofNat k.length]) k rest
    simpa using this
  · have hs2 : 127 < k.length := by omega
    rw [storeKey_long k hs2, if_neg hs]
    have := bytesAt_mid (pre ++ [UInt8.ofNat (0x80 ||| (k.length >>> 8)), UInt8.ofNat (k.length &&& 0xff)]) k rest
    simpa using this


/-! ## Stored keys -/

/-- C1: key round trip.  A key `k` of at most `Btree_maxkey` bytes, stored with
its length prefix at any address of a page, is read back by the accessors:
`keylen` yields the length of `k`, and the bytes found at `keystr` are `k`. -/
theorem key_round_trip (pre k rest : List UInt8) (h : k.length ≤ Btree_maxkey) :
    keylen (pre ++ storeKey k ++ rest) pre.length = some k.length ∧
    ∃ s, keystr (pre ++ storeKey k ++ rest) pre.length = some s ∧
      bytesAt (pre ++ storeKey k ++ rest) s k.length = k := by
  have h2 : k.length < 32768 := by
    have : Btree_maxkey = 4096 := rfl
    omega
  exact ⟨keylen_storeKey pre k rest h2, _, keystr_storeKey pre k rest h2,
    bytesAt_storeKey pre k rest⟩

/-- Witness of C1 at the maximum key length: a key of 4096 bytes stored at the
start of a buffer. -/
theorem key_round_trip_witness :
    (List.replicate 4096 (7 : UInt8)).length ≤ Btree_maxkey ∧
    keylen ([] ++ storeKey (List.replicate 4096 7) ++ []) ([] : List UInt8).length
      = some (List.replicate 4096 (7 : UInt8)).length ∧
    ∃ s, keystr ([] ++ storeKey (List.replicate 4096 7) ++ []) ([] : List UInt8).length = some s ∧
      bytesAt ([] ++ storeKey (List.replicate 4096 7) ++ []) s
        (List.replicate 4096 (7 : UInt8)).length = List.replicate 4096 7 :=
  ⟨by rw [List.length_replicate]; exact Nat.le_refl 4096,
    key_round_trip [] (List.replicate 4096 7) []
      (by rw [List.length_replicate]; exact Nat.le_refl 4096)⟩

/-- C6: the prefix form is determined by the key length.  For the leading bytes
of a key stored with its length prefix (whatever bytes follow it), `keypre` is
1 exactly when the length decoded by `keylen` is at most 127, and 2 exactly
when that length is greater than 127. -/
theorem keypre_by_length (pre k rest : List UInt8) (h : k.length ≤ Btree_maxkey) :
    ∃ p n, keypre (pre ++ storeKey k ++ rest) pre.length = some p ∧
      keylen (pre ++ storeKey k ++ rest) pre.length = some n ∧
      (p = 1 ↔ n ≤ 127) ∧ (p = 2 ↔ 127 < n) := by
  have h2 : k.length < 32768 := by
    have : Btree_maxkey = 4096 := rfl
    omega
  refine ⟨_, _, keypre_storeKey pre k rest h2, keylen_storeKey pre k rest h2, ?_, ?_⟩
  · by_cases hs : k.length ≤ 127 <;> simp [hs]
  · by_cases hs : k.length ≤ 127 <;> simp [hs]
    omega

/-- Witness of C6: a three-byte key stored after one unrelated byte. -/
theorem keypre_by_length_witness :
    ([1, 2, 3] : List UInt8).length ≤ Btree_maxkey ∧
    ∃ p n, keypre ([9] ++ storeKey [1, 2, 3] ++ [4]) ([9] : List UInt8).length = some p ∧
      keylen ([9] ++ storeKey [1, 2, 3] ++ [4]) ([9] : List UInt8).length = some n ∧
      (p = 1 ↔ n ≤ 127) ∧ (p = 2 ↔ 127 < n) :=
  ⟨by decide, keypre_by_length [9] [1, 2, 3] [4] (by decide)⟩

/-! ## Page sizes -/

/-- C7, as stated, fails at the minimum page size: `pageBits = 9` is within the
bounds, yet a page of `1 << 9 = 512` bytes does not hold a key of
`Btree_maxkey` bytes with its two-byte prefix. -/
theorem maxkey_exceeds_minpage :
    Btree_minbits ≤ 9 ∧ 9 ≤ Btree_maxbits ∧ 1 <<< 9 = Btree_minpage ∧
      ¬ (Btree_maxkey + 2 ≤ 1 <<< 9) := by
  decide

/-- C7, amended: for every permitted `pageBits` the page size `1 << pageBits`
lies between `Btree_minpage` and `Btree_maxpage` and is below `2 ^ 31`, and a key
of `Btree_maxkey` bytes with its two-byte prefix fits in the page exactly when
`pageBits` is at least 13. -/
theorem maxkey_fits_iff (pageBits : Nat) (hlo : Btree_minbits ≤ pageBits)
    (hhi : pageBits ≤ Btree_maxbits) :
    1 <<< pageBits < INT_LIMIT ∧ Btree_minpage ≤ 1 <<< pageBits ∧
      1 <<< pageBits ≤ Btree_maxpage ∧
      (Btree_maxkey + 2 ≤ 1 <<< pageBits ↔ 13 ≤ pageBits) := by
  have h1 : Btree_minbits = 9 := rfl
  have h2 : Btree_maxbits = 29 := rfl
  have hb : 9 ≤ pageBits ∧ pageBits ≤ 29 := by omega
  obtain ⟨ha, hc⟩ := hb
  interval_cases pageBits <;> decide

/-- Witness of the amended C7 at `pageBits = 13`. -/
theorem maxkey_fits_iff_witness :
    Btree_minbits ≤ 13 ∧ 13 ≤ Btree_maxbits ∧ 1 <<< 13 < INT_LIMIT ∧
      Btree_minpage ≤ 1 <<< 13 ∧ 1 <<< 13 ≤ Btree_maxpage ∧
      (Btree_maxkey + 2 ≤ 1 <<< 13 ↔ 13 ≤ 13) :=
  ⟨by decide, by decide, maxkey_fits_iff 13 (by decide) (by decide)⟩

/-! ## Lock modes -/

theorem lockMask_lt (s : Finset BtreeLock) : lockMask s < 64 := by
  revert s; decide

theorem lockModes_lockMask (s : Finset BtreeLock) : lockModes (lockMask s) = s := by
  revert s; decide

theorem lockMask_lockModes (m : Nat) (h : m < 64) : lockMask (lockModes m) = m := by
  interval_cases m <;> decide

/-- C10: the six lock modes are independent bits.  Every mode value is a power
of two and the values are pairwise different, two different modes have bitwise
AND 0, the OR of a set of modes has a mode's bit set exactly when the set
contains the mode, and `lockMask` maps the sets of modes one-to-one onto the
masks 0..63.  The modes of set 1 fill bits 0-1, those of set 2 bits 2-3, set 3
is bit 4 and set 4 is bit 5, and two modes share a latch field of `LatchSet`
exactly when they belong to the same set, each of the four fields serving one
set. -/
theorem lock_modes_independent :
    (∀ l : BtreeLock, ∃ i, i < 6 ∧ l.val = 2 ^ i) ∧
    (∀ a b : BtreeLock, a ≠ b → a.val ≠ b.val) ∧
    (∀ a b : BtreeLock, a ≠ b → a.val &&& b.val = 0) ∧
    (∀ (s : Finset BtreeLock) (l : BtreeLock), l ∈ s ↔ lockMask s &&& l.val ≠ 0) ∧
    Set.BijOn lockMask Set.univ {m | m < 64} ∧
    lockMask (Finset.univ.filter (fun l => l.set = 1)) = 0b000011 ∧
    lockMask (Finset.univ.filter (fun l => l.set = 2)) = 0b001100 ∧
    lockMask (Finset.univ.filter (fun l => l.set = 3)) = 0b010000 ∧
    lockMask (Finset.univ.filter (fun l => l.set = 4)) = 0b100000 ∧
    (∀ a b : BtreeLock, a.latch = b.latch ↔ a.set = b.set) ∧
    (∀ f : Latch, ∃ l : BtreeLock, l.latch = f) := by
  refine ⟨?_, by decide, by decide, by decide, ?_, by decide, by decide, by decide, by decide,
    by decide, ?_⟩
  · intro l
    cases l
    · exact ⟨0, by decide, rfl⟩
    · exact ⟨1, by decide, rfl⟩
    · exact ⟨2, by decide, rfl⟩
    · exact ⟨3, by decide, rfl⟩
    · exact ⟨4, by decide, rfl⟩
    · exact ⟨5, by decide, rfl⟩
  · refine ⟨fun s _ => lockMask_lt s, ?_, ?_⟩
    · intro a _ b _ hab
      rw [← lockModes_lockMask a, ← lockModes_lockMask b, hab]
    · intro m hm
      exact ⟨lockModes m, Set.mem_univ _, lockMask_lockModes m hm⟩
  · intro f
    cases f
    · exact ⟨.Btree_lockRead, rfl⟩
    · exact ⟨.Btree_lockAccess, rfl⟩
    · exact ⟨.Btree_lockParent, rfl⟩
    · exact ⟨.Btree_lockLink, rfl⟩

/-! ## Slot descriptors -/

theorem off_ofFields (o t d : Nat) : (BtreeSlot.ofFields o t d).off = o % 2 ^ 29 := by
  simp only [BtreeSlot.off, BtreeSlot.ofFields, Btree_maxbits]
  norm_num
  omega

theorem type_ofFields (o t d : Nat) : (BtreeSlot.ofFields o t d).type = t % 4 := by
  simp only [BtreeSlot.type, BtreeSlot.ofFields, Btree_maxbits]
  norm_num
  omega

theorem dead_ofFields (o t d : Nat) : (BtreeSlot.ofFields o t d).dead = d % 2 := by
  simp only [BtreeSlot.dead, BtreeSlot.ofFields, Btree_maxbits]
  norm_num
  omega

theorem bits_ofFields (o t d : Nat) :
    (BtreeSlot.ofFields o t d).bits = o % 2 ^ 29 + (t % 4) * 2 ^ 29 + (d % 2) * 2 ^ 31 := by
  simp only [BtreeSlot.ofFields, Btree_maxbits]
  norm_num

theorem bits_fields (s : BtreeSlot) :
    s.bits % 2 ^ 32 = s.off + s.type * 2 ^ 29 + s.dead * 2 ^ 31 := by
  simp only [BtreeSlot.off, BtreeSlot.type, BtreeSlot.dead, Btree_maxbits]
  norm_num
  omega

theorem bits_packSlot (off : Nat) (ty : BtreeSlotType) (dead : Bool) :
    (packSlot off ty dead).bits
      = off % 2 ^ 29 + (ty.val % 4) * 2 ^ 29 + (dead.toNat % 2) * 2 ^ 31 := by
  simp only [packSlot, BtreeSlot.setDead, BtreeSlot.setType, BtreeSlot.setOff, bits_ofFields,
    off_ofFields, type_ofFields, dead_ofFields]
  norm_num

theorem ofField_val (ty : BtreeSlotType) : BtreeSlotType.ofField (ty.val % 4) = ty := by
  cases ty <;> decide

theorem unpack_packSlot (off : Nat) (ty : BtreeSlotType) (dead : Bool) (h : off < 2 ^ 29) :
    unpackSlot (packSlot off ty dead) = (off, ty, dead) := by
  simp only [unpackSlot, packSlot, BtreeSlot.setDead, BtreeSlot.setType, BtreeSlot.setOff,
    off_ofFields, type_ofFields, dead_ofFields, Nat.mod_mod, ofField_val]
  rw [Nat.mod_eq_of_lt h]
  cases dead <;> simp

theorem pow_le_maxbits (pageBits : Nat) (hhi : pageBits ≤ Btree_maxbits) :
    2 ^ pageBits ≤ 2 ^ 29 :=
  Nat.pow_le_pow_right (by decide) hhi

/-- C2: slot descriptor packing is lossless.  The three fields take
29 + 2 + 1 = 32 bits; for an offset inside a page of a permitted size, any slot
type and any dead flag, the packed word is below `2 ^ 32` and is the sum of the
three fields at bit positions 0, 29 and 31, reading the fields back returns the
triple, and two triples with the same word are equal. -/
theorem slot_packing_lossless (pageBits off : Nat) (ty : BtreeSlotType) (dead : Bool)
    (_hlo : Btree_minbits ≤ pageBits) (hhi : pageBits ≤ Btree_maxbits)
    (hoff : off < 2 ^ pageBits) :
    Btree_maxbits + 2 + 1 = 32 ∧
    (packSlot off ty dead).bits < 2 ^ 32 ∧
    (packSlot off ty dead).bits = off + ty.val * 2 ^ 29 + dead.toNat * 2 ^ 31 ∧
    unpackSlot (packSlot off ty dead) = (off, ty, dead) ∧
    ∀ (off2 : Nat) (ty2 : BtreeSlotType) (dead2 : Bool), off2 < 2 ^ pageBits →
      packSlot off2 ty2 dead2 = packSlot off ty dead → (off2, ty2, dead2) = (off, ty, dead) := by
  have hp := pow_le_maxbits pageBits hhi
  have ho : off < 2 ^ 29 := lt_of_lt_of_le hoff hp
  have hb : (packSlot off ty dead).bits = off + ty.val * 2 ^ 29 + dead.toNat * 2 ^ 31 := by
    rw [bits_packSlot, Nat.mod_eq_of_lt ho]
    cases ty <;> cases dead <;> rfl
  refine ⟨rfl, ?_, hb, unpack_packSlot off ty dead ho, ?_⟩
  · rw [hb]
    have h1 : ty.val ≤ 3 := by cases ty <;> decide
    have h2 : dead.toNat ≤ 1 := by cases dead <;> decide
    norm_num at ho ⊢
    omega
  · intro off2 ty2 dead2 ho2 heq
    have ho2 : off2 < 2 ^ 29 := lt_of_lt_of_le ho2 hp
    rw [← unpack_packSlot off2 ty2 dead2 ho2, heq, unpack_packSlot off ty dead ho]

/-- Witness of C2: offset 511 of a 512-byte page, a stopper slot marked dead. -/
theorem slot_packing_lossless_witness :
    Btree_minbits ≤ 9 ∧ 9 ≤ Btree_maxbits ∧ 511 < 2 ^ 9 ∧
    (packSlot 511 .Btree_stopper true).bits = 511 + 3 * 2 ^ 29 + 1 * 2 ^ 31 ∧
    unpackSlot (packSlot 511 .Btree_stopper true) = (511, .Btree_stopper, true) :=
  ⟨by decide, by decide, by decide,
    (slot_packing_lossless 9 511 .Btree_stopper true (by decide) (by decide) (by decide)).2.2.1,
    (slot_packing_lossless 9 511 .Btree_stopper true (by decide) (by decide) (by decide)).2.2.2.1⟩

/-- C8: marking a key dead keeps it on the page.  Setting the dead flag of a
slot descriptor leaves `off` and `type` as they were and changes no bit of the
word below bit 31, so the key length and the key bytes found through the
descriptor in a page are the same before and after. -/
theorem mark_dead_keeps_key (s : BtreeSlot) (page : Mem) :
    (s.setDead 1).off = s.off ∧ (s.setDead 1).type = s.type ∧ (s.setDead 1).dead = 1 ∧
    (s.setDead 1).bits % 2 ^ 31 = s.bits % 2 ^ 31 ∧
    (s.setDead 1).bits = s.bits % 2 ^ 31 + 2 ^ 31 ∧
    keylen page (keyaddr (s.setDead 1).off) = keylen page (keyaddr s.off) ∧
    keyAt page (keyaddr (s.setDead 1).off) = keyAt page (keyaddr s.off) := by
  have ho : (s.setDead 1).off = s.off := by
    simp only [BtreeSlot.setDead, off_ofFields]
    simp only [BtreeSlot.off, Btree_maxbits, Nat.mod_mod]
  have hb : (s.setDead 1).bits = s.bits % 2 ^ 31 + 2 ^ 31 := by
    simp only [BtreeSlot.setDead, bits_ofFields]
    simp only [BtreeSlot.off, BtreeSlot.type, Btree_maxbits]
    norm_num
    omega
  refine ⟨ho, ?_, ?_, ?_, hb, by rw [ho], by rw [ho]⟩
  · simp only [BtreeSlot.setDead, type_ofFields]
    simp only [BtreeSlot.type, Btree_maxbits]
    norm_num
  · simp only [BtreeSlot.setDead, dead_ofFields]
  · rw [hb]
    norm_num

/-! ## Page header flags -/

/-- C9: page level storage is lossless within the bound.  A level of at most
`Btree_maxbits` written into the six-bit `lvl` field is read back unchanged; the
write keeps `free`, `kill` and every other header field, and the three
bit-fields fill the 6 + 1 + 1 = 8 bits of one byte. -/
theorem lvl_store_lossless (p : BtreePage) (L : Nat) (h : L ≤ Btree_maxbits) :
    (p.setLvl L).lvl = L ∧ (p.setLvl L).free = p.free ∧ (p.setLvl L).kill = p.kill ∧
    6 + 1 + 1 = 8 ∧ (p.setLvl L).flags < 2 ^ 8 ∧
    (p.setLvl L).flags = L + p.free * 2 ^ 6 + p.kill * 2 ^ 7 ∧
    (p.setLvl L).cnt = p.cnt ∧ (p.setLvl L).act = p.act ∧ (p.setLvl L).min = p.min ∧
    (p.setLvl L).garbage = p.garbage ∧ (p.setLvl L).right = p.right ∧
    (p.setLvl L).left = p.left ∧ (p.setLvl L).latch = p.latch := by
  have hL : L ≤ 29 := h
  simp only [BtreePage.setLvl, BtreePage.lvl, BtreePage.free, BtreePage.kill]
  norm_num
  omega

/-- Witness of C9: level 29 written into a header whose `free` and `kill` flags
are both set. -/
theorem lvl_store_lossless_witness :
    29 ≤ Btree_maxbits ∧
    ((BtreePage.mk ⟨0, 0, 0, 0⟩ 1 1 512 0 0xc3 0 0).setLvl 29).lvl = 29 ∧
    ((BtreePage.mk ⟨0, 0, 0, 0⟩ 1 1 512 0 0xc3 0 0).setLvl 29).free = 1 ∧
    ((BtreePage.mk ⟨0, 0, 0, 0⟩ 1 1 512 0 0xc3 0 0).setLvl 29).kill = 1 :=
  ⟨by decide,
    (lvl_store_lossless (BtreePage.mk ⟨0, 0, 0, 0⟩ 1 1 512 0 0xc3 0 0) 29 (by decide)).1,
    (lvl_store_lossless (BtreePage.mk ⟨0, 0, 0, 0⟩ 1 1 512 0 0xc3 0 0) 29 (by decide)).2.1,
    (lvl_store_lossless (BtreePage.mk ⟨0, 0, 0, 0⟩ 1 1 512 0 0xc3 0 0) 29 (by decide)).2.2.1⟩

/-! ## Slot resolution -/

theorem toInt32_of_lt (n : Nat) (h : n < 2 ^ 31) : toInt32 n = (n : Int) := by
  have h1 : n % 2 ^ 32 = n := Nat.mod_eq_of_lt (by omega)
  simp only [toInt32, h1, h, if_true]

theorem slotptr_of_pos (H s : Nat) (hs : 1 ≤ s) (h : s < 2 ^ 31) :
    slotptr H s = ((H + 4 * (s - 1) : Nat) : Int) := by
  simp only [slotptr, slotSize, toInt32_of_lt s h]
  omega

theorem word32_inside (page : Mem) (a : Nat) (h : a + 4 ≤ page.length) :
    ∃ w, word32 page a = some w ∧ w < 2 ^ 32 := by
  have h0 : a < page.length := by omega
  have h1 : a + 1 < page.length := by omega
  have h2 : a + 2 < page.length := by omega
  have h3 : a + 3 < page.length := by omega
  simp only [word32, List.getElem?_eq_getElem h0, List.getElem?_eq_getElem h1,
    List.getElem?_eq_getElem h2, List.getElem?_eq_getElem h3]
  refine ⟨_, rfl, ?_⟩
  have := toNat_lt page[a]
  have := toNat_lt page[a + 1]
  have := toNat_lt page[a + 2]
  have := toNat_lt page[a + 3]
  omega

theorem keystr_eq_keypre (page : Mem) (key : Nat) :
    keystr page key = (keypre page key).map (fun p => key + p) := by
  simp only [keystr, keypre]
  cases page[key]? with
  | none => rfl
  | some b0 => by_cases h : longForm b0 = true <;> simp [h]

/-- C3: slot resolution.  In a page of at most `Btree_maxpage` bytes whose
header of `H` bytes is followed by the 4-byte slot descriptors, for a slot index
`s ≥ 1` whose descriptor lies in the page, `slotptr` is byte offset
`H + 4 * (s - 1)`, the descriptor is the 32-bit word stored there, `keyptr` is
`keyaddr` of the descriptor's `off` field, and the key of the slot is the
`keylen` bytes that start `keypre` bytes after that address. -/
theorem slot_resolution (page : Mem) (H s : Nat) (hs : 1 ≤ s)
    (hin : H + 4 * s ≤ page.length) (hpage : page.length ≤ Btree_maxpage) :
    slotptr H s = ((H + 4 * (s - 1) : Nat) : Int) ∧
    ∃ d : BtreeSlot, word32 page (H + 4 * (s - 1)) = some d.bits ∧
      slotAt page (slotptr H s) = some d ∧
      keyptr page H s = some (keyaddr d.off) ∧
      slotKey page H s =
        (match keylen page (keyaddr d.off), keypre page (keyaddr d.off) with
          | some len, some p => keyBytes page (keyaddr d.off + p) len
          | _, _ => none) := by
  have hmax : Btree_maxpage = 2 ^ 29 := by decide
  have hlt : s < 2 ^ 31 := by omega
  have hptr := slotptr_of_pos H s hs hlt
  obtain ⟨w, hw, _⟩ := word32_inside page (H + 4 * (s - 1)) (by omega)
  have hslot : slotAt page (slotptr H s) = some ⟨w⟩ := by
    rw [hptr]
    have hnn : (0 : Int) ≤ ((H + 4 * (s - 1) : Nat) : Int) := Int.ofNat_nonneg _
    simp only [slotAt, if_pos hnn, Int.toNat_ofNat, hw, Option.map_some']
  have hkey : keyptr page H s = some (keyaddr (BtreeSlot.mk w).off) := by
    simp only [keyptr, hslot, keyaddr, Option.map_some']
  refine ⟨hptr, ⟨w⟩, hw, hslot, hkey, ?_⟩
  simp only [slotKey, hkey, keyAt, keystr_eq_keypre]
  cases keylen page (keyaddr (BtreeSlot.mk w).off) <;>
    cases keypre page (keyaddr (BtreeSlot.mk w).off) <;> rfl

/-- Witness of C3: a 16-byte page with an 8-byte header; slot 1 has offset 12,
where the key `[0xaa, 0xbb]` is stored behind its one-byte prefix. -/
theorem slot_resolution_witness :
    slotptr 8 1 = ((8 + 4 * (1 - 1) : Nat) : Int) ∧
    slotKey [0, 0, 0, 0, 0, 0, 0, 0, 12, 0, 0, 0, 2, 0xaa, 0xbb, 0] 8 1 = some [0xaa, 0xbb] :=
  ⟨(slot_resolution [0, 0, 0, 0, 0, 0, 0, 0, 12, 0, 0, 0, 2, 0xaa, 0xbb, 0] 8 1
      (by decide) (by decide) (by decide)).1, by decide⟩

/-! ## Page cleanup -/

theorem read_bytesAt (mem : Mem) (a n i : Nat) :
    (bytesAt mem a n)[i]? = if i < n then mem[a + i]? else none := by
  simp only [bytesAt, List.getElem?_take, List.getElem?_drop]

theorem length_bytesAt (mem : Mem) (a n : Nat) (h : a + n ≤ mem.length) :
    (bytesAt mem a n).length = n := by
  simp only [bytesAt, List.length_take, List.length_drop]
  omega

theorem length_writeBytes (buf : Mem) (a : Nat) (bs : List UInt8)
    (h : a + bs.length ≤ buf.length) : (writeBytes buf a bs).length = buf.length := by
  simp only [writeBytes, List.length_append, List.length_take, List.length_drop]
  omega

theorem read_writeBytes (buf : Mem) (a : Nat) (bs : List UInt8)
    (h : a + bs.length ≤ buf.length) (i : Nat) :
    (writeBytes buf a bs)[i]? = if a ≤ i ∧ i < a + bs.length then bs[i - a]? else buf[i]? := by
  have hlen : (buf.take a).length = a := by
    rw [List.length_take]; omega
  simp only [writeBytes, List.append_assoc]
  by_cases h1 : i < a
  · rw [List.getElem?_append_left (by omega), List.getElem?_take_of_lt h1]
    have : ¬ (a ≤ i ∧ i < a + bs.length) := by omega
    rw [if_neg this]
  · rw [List.getElem?_append_right (by omega), hlen]
    by_cases h2 : i < a + bs.length
    · rw [List.getElem?_append_left (by omega)]
      have : a ≤ i ∧ i < a + bs.length := by omega
      rw [if_pos this]
    · rw [List.getElem?_append_right (by omega), List.getElem?_drop]
      have : ¬ (a ≤ i ∧ i < a + bs.length) := by omega
      rw [if_neg this]
      congr 1
      omega

theorem bytesAt_congr (m1 m2 : Mem) (a1 a2 n : Nat)
    (h : ∀ i, i < n → m1[a1 + i]? = m2[a2 + i]?) : bytesAt m1 a1 n = bytesAt m2 a2 n := by
  apply List.ext_getElem?
  intro i
  rw [read_bytesAt, read_bytesAt]
  by_cases hi : i < n
  · rw [if_pos hi, if_pos hi, h i hi]
  · rw [if_neg hi, if_neg hi]

theorem keySpan_some (mem : Mem) (a n : Nat) (h : keySpan mem a = some n) :
    ∃ b0 p len, mem[a]? = some b0 ∧ keypre mem a = some p ∧ keylen mem a = some len ∧
      n = p + len ∧ p = (if longForm b0 then 2 else 1) := by
  simp only [keySpan] at h
  cases hb : mem[a]? with
  | none => simp [keypre, hb] at h
  | some b0 =>
    cases hl : keylen mem a with
    | none => simp [hl] at h
    | some len =>
      have hp : keypre mem a = some (if longForm b0 then 2 else 1) := by
        simp only [keypre, hb]
        by_cases hf : longForm b0 = true <;> simp [hf]
      rw [hp, hl] at h
      simp only [Option.some.injEq] at h
      exact ⟨b0, _, len, rfl, hp, rfl, h.symm, rfl⟩

/-- A key copied byte for byte to another place is read there as the same key. -/
theorem keyAt_copy (src buf : Mem) (a o n : Nat) (hs : keySpan src a = some n)
    (ha : a + n ≤ src.length) (ho : o + n ≤ buf.length)
    (heq : ∀ i, i < n → buf[o + i]? = src[a + i]?) :
    keyAt buf o = keyAt src a ∧ keySpan buf o = some n ∧
      keyAt src a = some (bytesAt src (a + (n - (keylen src a).getD 0)) ((keylen src a).getD 0)) := by
  obtain ⟨b0, p, len, hb, hp, hl, hn, hpv⟩ := keySpan_some src a n hs
  have hp1 : 1 ≤ p := by rw [hpv]; split <;> omega
  have hb2 : buf[o]? = some b0 := by
    have := heq 0 (by omega)
    simpa [hb] using this
  have hp2 : keypre buf o = some p := by
    simp only [keypre, hb2, hpv]
    by_cases hf : longForm b0 = true <;> simp [hf]
  have hl2 : keylen buf o = some len := by
    rw [← hl]
    simp only [keylen, hb, hb2]
    by_cases hf : longForm b0 = true
    · have h2 : p = 2 := by rw [hpv, if_pos hf]
      have := heq 1 (by omega)
      simp only [hf, if_true, this]
    · simp [hf]
  have hstr : keystr src a = some (a + p) := by rw [keystr_eq_keypre, hp]; rfl
  have hstr2 : keystr buf o = some (o + p) := by rw [keystr_eq_keypre, hp2]; rfl
  have hbytes : bytesAt buf (o + p) len = bytesAt src (a + p) len := by
    apply bytesAt_congr
    intro i hi
    have := heq (p + i) (by omega)
    rw [Nat.add_assoc, Nat.add_assoc]
    exact this
  have hk1 : keyAt src a = some (bytesAt src (a + p) len) := by
    simp only [keyAt, hl, hstr, keyBytes]
    rw [if_pos (by omega)]
  have hk2 : keyAt buf o = some (bytesAt buf (o + p) len) := by
    simp only [keyAt, hl2, hstr2, keyBytes]
    rw [if_pos (by omega)]
  refine ⟨by rw [hk1, hk2, hbytes], ?_, ?_⟩
  · simp only [keySpan, hp2, hl2, hn]
  · rw [hk1, hl]
    simp only [Option.getD_some]
    have : n - len = p := by omega
    rw [this]

/-- Reading a key depends only on the bytes from its address upward. -/
theorem keyAt_above (m1 m2 : Mem) (o n : Nat) (hs : keySpan m2 o = some n)
    (h2 : o + n ≤ m2.length) (hlen : m1.length = m2.length)
    (heq : ∀ i, o ≤ i → m1[i]? = m2[i]?) :
    keyAt m1 o = keyAt m2 o ∧ keySpan m1 o = some n := by
  have := keyAt_copy m2 m1 o o n hs h2 (by omega) (fun i _ => heq (o + i) (by omega))
  exact ⟨this.1, this.2.1⟩

theorem keySpan_pos (mem : Mem) (a n : Nat) (h : keySpan mem a = some n) : 1 ≤ n := by
  obtain ⟨b0, p, len, _, _, _, hn, hpv⟩ := keySpan_some mem a n h
  have : 1 ≤ p := by rw [hpv]; split <;> omega
  omega

theorem off_setOff (d : BtreeSlot) (m : Nat) (h : m < 2 ^ 29) : (d.setOff m).off = m := by
  rw [BtreeSlot.setOff, off_ofFields, Nat.mod_eq_of_lt h]

theorem dead_setOff (d : BtreeSlot) (m : Nat) : (d.setOff m).dead = d.dead := by
  rw [BtreeSlot.setOff, dead_ofFields]
  simp only [BtreeSlot.dead]
  norm_num

theorem type_setOff (d : BtreeSlot) (m : Nat) : (d.setOff m).type = d.type := by
  rw [BtreeSlot.setOff, type_ofFields]
  simp only [BtreeSlot.type]
  norm_num

theorem keyInside_iff (mem : Mem) (key : Nat) :
    keyInside mem key = true ↔ ∃ n, keySpan mem key = some n ∧ key + n ≤ mem.length := by
  simp only [keyInside]
  cases keySpan mem key with
  | none => simp
  | some n => simp

theorem copyKey_spec (src : Mem) (N : Nat) (hN : N ≤ 2 ^ 29) (st : CleanState) (d : BtreeSlot)
    (n : Nat) (hlen : st.buf.length = N) (hmin : st.min ≤ N)
    (hs : keySpan src (keyaddr d.off) = some n) (hin : keyaddr d.off + n ≤ src.length)
    (hfit : n ≤ st.min) :
    ∃ st2, copyKey src st d = some st2 ∧ st2.buf.length = N ∧ st2.min + n = st.min ∧
      (∀ i, st.min ≤ i → st2.buf[i]? = st.buf[i]?) ∧
      st2.slots = st.slots ++ [d.setOff st2.min] ∧
      (d.setOff st2.min).off = st2.min ∧
      keySpan st2.buf st2.min = some n ∧
      keyAt st2.buf st2.min = keyAt src (keyaddr d.off) := by
  have hn1 := keySpan_pos src _ n hs
  have hbl : (bytesAt src (keyaddr d.off) n).length = n := length_bytesAt src _ n hin
  have hw : st.min - n + (bytesAt src (keyaddr d.off) n).length ≤ st.buf.length := by
    rw [hbl]; omega
  have hrd := read_writeBytes st.buf (st.min - n) (bytesAt src (keyaddr d.off) n) hw
  have hwl := length_writeBytes st.buf (st.min - n) (bytesAt src (keyaddr d.off) n) hw
  have hcopy := keyAt_copy src (writeBytes st.buf (st.min - n) (bytesAt src (keyaddr d.off) n))
    (keyaddr d.off) (st.min - n) n hs hin (by rw [hwl]; omega) (by
      intro i hi
      rw [hrd, hbl, if_pos (by omega), read_bytesAt, if_pos (by omega)]
      congr 1
      omega)
  refine ⟨CleanState.mk (st.min - n)
      (writeBytes st.buf (st.min - n) (bytesAt src (keyaddr d.off) n))
      (st.slots ++ [d.setOff (st.min - n)]),
    ?_, ?_, ?_, ?_, rfl, ?_, hcopy.2.1, hcopy.1⟩
  · simp only [copyKey, hs]
    rw [if_pos ⟨hin, hfit⟩]
  · simp only [hwl, hlen]
  · simp only
    omega
  · intro i hi
    simp only
    rw [hrd, hbl, if_neg (by omega)]
  · exact off_setOff d _ (by simp only; omega)

theorem liveBytes_cons_dead (src : Mem) (d : BtreeSlot) (ds : List BtreeSlot)
    (h : d.dead ≠ 0) : liveBytes src (d :: ds) = liveBytes src ds := by
  simp [liveBytes, List.filter_cons, h]

theorem liveBytes_cons_live (src : Mem) (d : BtreeSlot) (ds : List BtreeSlot) (n : Nat)
    (h : d.dead = 0) (hs : keySpan src (keyaddr d.off) = some n) :
    liveBytes src (d :: ds) = n + liveBytes src ds := by
  simp [liveBytes, List.filter_cons, h, hs]

theorem cleanSlots_spec (src : Mem) (N : Nat) (hN : N ≤ 2 ^ 29) :
    ∀ (ds : List BtreeSlot) (st : CleanState), st.buf.length = N → st.min ≤ N →
      (∀ d ∈ ds, d.dead = 0 → keyInside src (keyaddr d.off) = true) →
      liveBytes src ds ≤ st.min →
      ∃ st2 new, cleanSlots src ds st = some st2 ∧ st2.buf.length = N ∧
        st2.min + liveBytes src ds = st.min ∧
        (∀ i, st.min ≤ i → st2.buf[i]? = st.buf[i]?) ∧
        st2.slots = st.slots ++ new ∧
        (∀ d ∈ new, d.dead = 0) ∧
        new.map (fun d => keyAt st2.buf (keyaddr d.off)) =
          (ds.filter (fun d => d.dead = 0)).map (fun d => keyAt src (keyaddr d.off)) ∧
        new.map BtreeSlot.type = (ds.filter (fun d => d.dead = 0)).map BtreeSlot.type := by
  intro ds
  induction ds with
  | nil =>
    intro st hlen _ _ _
    exact ⟨st, [], rfl, hlen, by simp [liveBytes], fun _ _ => rfl, by simp, by simp, rfl, rfl⟩
  | cons d ds ih =>
    intro st hlen hmin hkeys hfit
    have hkeys2 : ∀ e ∈ ds, e.dead = 0 → keyInside src (keyaddr e.off) = true :=
      fun e he => hkeys e (List.mem_cons_of_mem d he)
    by_cases hd : d.dead = 0
    · obtain ⟨n, hs, hin⟩ := (keyInside_iff src _).1 (hkeys d (List.mem_cons_self d ds) hd)
      rw [liveBytes_cons_live src d ds n hd hs] at hfit ⊢
      obtain ⟨st1, hc, hlen1, hmin1, hkeep1, hslots1, hoff1, hspan1, hkey1⟩ :=
        copyKey_spec src N hN st d n hlen hmin hs hin (by omega)
      obtain ⟨st2, new, hrun, hlen2, hmin2, hkeep2, hslots2, hdead2, hkeys3, htypes⟩ :=
        ih st1 hlen1 (by omega) hkeys2 (by omega)
      have hfin := keyAt_above st2.buf st1.buf st1.min n hspan1 (by omega)
        (by rw [hlen2, hlen1]) (fun i hi => hkeep2 i hi)
      refine ⟨st2, d.setOff st1.min :: new, ?_, hlen2, by omega, ?_, ?_, ?_, ?_, ?_⟩
      · simp only [cleanSlots, hd, ne_eq, not_true_eq_false, if_false, hc, hrun]
      · intro i hi
        rw [hkeep2 i (by omega), hkeep1 i hi]
      · rw [hslots2, hslots1, List.append_assoc]
        rfl
      · intro e he
        rcases List.mem_cons.1 he with rfl | he
        · rw [dead_setOff, hd]
        · exact hdead2 e he
      · simp only [List.map_cons, List.filter_cons, hd, decide_True, if_true, hkeys3]
        rw [hoff1]
        simp only [keyaddr, Nat.zero_add] at hfin hkey1 ⊢
        rw [hfin.1, hkey1]
      · simp only [List.map_cons, List.filter_cons, hd, decide_True, if_true, htypes,
          type_setOff]
    · rw [liveBytes_cons_dead src d ds hd] at hfit ⊢
      obtain ⟨st2, new, hrun, hlen2, hmin2, hkeep2, hslots2, hdead2, hkeys3, htypes⟩ :=
        ih st hlen hmin hkeys2 hfit
      refine ⟨st2, new, ?_, hlen2, hmin2, hkeep2, hslots2, hdead2, ?_, ?_⟩
      · simp only [cleanSlots, ne_eq, hd, not_false_eq_true, if_true, hrun]
      · simp only [List.filter_cons, hd, decide_False, hkeys3]
        rfl
      · simp only [List.filter_cons, hd, decide_False, htypes]
        rfl

/-- C4: after `btreeCleanPage` the garbage counter is zero and the live keys
are the same, in the same order.  For a page of at most `Btree_maxpage` bytes
whose live keys can be read inside the page and fit into it together, the
cleanup returns a page with garbage counter 0 whose live keys, listed in slot
order, are those of the page before the call; the slot types of the live slots
are kept in order, no slot of the result is dead, and the latches (so a held
WriteLock) are left as they were. -/
theorem cleanPage_keeps_live_keys (p : Page) (hsize : p.mem.length ≤ Btree_maxpage)
    (hkeys : ∀ d ∈ p.slots, d.dead = 0 → keyInside p.mem (keyaddr d.off) = true)
    (hfit : liveBytes p.mem p.slots ≤ p.mem.length) :
    ∃ q, btreeCleanPage p = some q ∧ q.hdr.garbage = 0 ∧ liveKeys q = liveKeys p ∧
      (∀ k ∈ liveKeys q, k ≠ none) ∧
      q.slots.map BtreeSlot.type
        = (p.slots.filter (fun d => d.dead = 0)).map BtreeSlot.type ∧
      (∀ d ∈ q.slots, d.dead = 0) ∧ q.hdr.latch = p.hdr.latch ∧
      q.mem.length = p.mem.length := by
  have hmax : Btree_maxpage = 2 ^ 29 := by decide
  obtain ⟨st, new, hrun, hlen, _, _, hslots, hdead, hk, hty⟩ :=
    cleanSlots_spec p.mem p.mem.length (by omega) p.slots
      (CleanState.mk p.mem.length (List.replicate p.mem.length 0) [])
      (by simp) (le_refl _) hkeys hfit
  simp only [List.nil_append] at hslots
  subst hslots
  have hall : st.slots.filter (fun d => d.dead = 0) = st.slots := by
    rw [List.filter_eq_self]
    intro d hd
    simp [hdead d hd]
  obtain ⟨q, hq, hqs, hqm, hqg, hql⟩ : ∃ q, btreeCleanPage p = some q ∧ q.slots = st.slots ∧
      q.mem = st.buf ∧ q.hdr.garbage = 0 ∧ q.hdr.latch = p.hdr.latch :=
    ⟨Page.mk (BtreePage.mk p.hdr.latch st.slots.length st.slots.length st.min 0 p.hdr.flags
        p.hdr.right p.hdr.left) st.slots st.buf,
      by simp only [btreeCleanPage, hrun], rfl, rfl, rfl, rfl⟩
  have hlive : liveKeys q = liveKeys p := by
    simp only [liveKeys, hqs, hqm, hall, hk]
  refine ⟨q, hq, hqg, hlive, ?_, by rw [hqs]; exact hty, by rw [hqs]; exact hdead, hql,
    by rw [hqm]; exact hlen⟩
  rw [hlive]
  intro k hk2
  simp only [liveKeys, List.mem_map, List.mem_filter, decide_eq_true_eq] at hk2
  obtain ⟨d, ⟨hd, hd0⟩, rfl⟩ := hk2
  obtain ⟨n, hs, hin⟩ := (keyInside_iff p.mem _).1 (hkeys d hd hd0)
  have := (keyAt_copy p.mem p.mem _ _ n hs hin hin (fun _ _ => rfl)).2.2
  rw [this]
  simp

/-- Witness of C4 on the example page: two live keys and one dead key. -/
theorem cleanPage_keeps_live_keys_witness :
    samplePage.mem.length ≤ Btree_maxpage ∧
    (∀ d ∈ samplePage.slots, d.dead = 0 → keyInside samplePage.mem (keyaddr d.off) = true) ∧
    liveBytes samplePage.mem samplePage.slots ≤ samplePage.mem.length ∧
    liveKeys samplePage = [some [1, 2], some [4, 5, 6]] ∧
    ∃ q, btreeCleanPage samplePage = some q ∧ q.hdr.garbage = 0 ∧
      liveKeys q = liveKeys samplePage ∧
      (∀ k ∈ liveKeys q, k ≠ none) ∧
      q.slots.map BtreeSlot.type
        = (samplePage.slots.filter (fun d => d.dead = 0)).map BtreeSlot.type ∧
      (∀ d ∈ q.slots, d.dead = 0) ∧ q.hdr.latch = samplePage.hdr.latch ∧
      q.mem.length = samplePage.mem.length :=
  ⟨by decide, by decide, by decide, by decide,
    cleanPage_keeps_live_keys samplePage (by decide) (by decide) (by decide)⟩

end Btree
